import Mathlib

/-!
Verification development for `sinto/fragments.py` (ATAC fragment assembly and
deduplication).  The Python functions are shallowly embedded as executable Lean
definitions: the insertion-ordered Python `dict` keyed by read name becomes an
association list, Python strings are Lean strings (lists of characters),
machine integers become `Int`/`Nat`, and a raised Python exception becomes an
`Except.error` value.  The deduplicator's composite keys are modelled exactly
as in the source: pipe-joined strings built with `str(...)` and decoded with
`split("|")`, including the `KeyError`/`IndexError` paths that a pipe
character inside a chromosome name or cell barcode triggers.
-/

/-- Python exceptions that the embedded code can raise.
`attributeError` models `None.group()` (fragments.py line 154),
`nameError` models the unbound name `re` (line 108),
`valueError` models `max()` over an empty sequence (line 52),
`keyError` models a failed dict lookup in the counts loop (lines 46-47),
`indexError` models a failed list index (line 45). -/
inductive PyErr where
  | attributeError
  | nameError
  | valueError
  | keyError
  | indexError
deriving DecidableEq

/-- The fields of a `pysam.AlignedSegment` that `fragments.py` reads.
`reference_name` and `reference_end` may be absent (`None` in pysam);
`tags` is the read's tag list as (tag, value) pairs. -/
structure AlignedSegment where
  query_name : String
  reference_name : Option String
  reference_start : Int
  reference_end : Option Int
  query_alignment_start : Int
  is_reverse : Bool
  mapping_quality : Int
  tags : List (String × String)
deriving DecidableEq

/-- One in-progress fragment record: the dict
`{"chrom": ..., "start": ..., "end": ..., "cell": ...}` built at
fragments.py lines 184-189.  Any field may be Python `None`. -/
structure FragRec where
  chrom : Option String
  start : Option Int
  end_ : Option Int
  cell : Option String
deriving DecidableEq

/-- The in-progress fragment mapping (Python dict keyed by `query_name`),
modelled as an insertion-ordered association list. -/
abbrev FragDict := List (String × FragRec)

/-- A completed fragment: all four fields present (spec data model
`CompletedFragment`), as consumed by `collapseFragments`. -/
structure CompletedFragment where
  chrom : String
  start : Int
  end_ : Int
  cell : String
deriving DecidableEq

/-- One output row of the deduplicator, fragments.py lines 69-72:
`frag = collapsed_frags[i].split("|")` followed by appending the barcode and
the row sum.  The decoded coordinate is a list of strings — when the
coordinate key holds extra pipe characters the split yields more than three
parts, so the row is kept as the raw field list. -/
structure DedupedRow where
  fields : List String
  cell : String
  count : Nat
deriving DecidableEq

/-- Python `fragments[qname]` lookup on the association-list dict. -/
def dictLookup (d : FragDict) (k : String) : Option FragRec :=
  match d with
  | [] => none
  | (k', v) :: rest => if k' = k then some v else dictLookup rest k

/-- Python `fragments[qname] = v`: replace the entry in place if the key is
present, otherwise append it (dict insertion order). -/
def dictSet (d : FragDict) (k : String) (v : FragRec) : FragDict :=
  match d with
  | [] => [(k, v)]
  | (k', v') :: rest => if k' = k then (k, v) :: rest else (k', v') :: dictSet rest k v

/-- Modelled from the spec: `utils.scan_tags` (sinto/utils.py is not under
src/).  Spec 4.1: "extract barcode via tag lookup on the read; if the tag is
absent, barcode is null."  Returns the value of the first tag equal to `cb`. -/
def scan_tags (tags : List (String × String)) (cb : String) : Option String :=
  match tags with
  | [] => none
  | (t, v) :: rest => if t = cb then some v else scan_tags rest cb

/-- Barcode extraction, fragments.py lines 152-156.  A configured regex is
modelled as a match function from the read name to the optional matched text;
`re_match.group()` on a failed match (`None`) raises `AttributeError`. -/
def getCellBarcode (readname_barcode : Option (String → Option String))
    (segment : AlignedSegment) (cellbarcode : String) : Except PyErr (Option String) :=
  match readname_barcode with
  | some rb =>
    match rb segment.query_name with
    | none => Except.error PyErr.attributeError
    | some s => Except.ok (some s)
  | none => Except.ok (scan_tags segment.tags cellbarcode)

/-- The allow-list check, fragments.py lines 157-159: reject only when a cell
list is configured, the barcode is non-null, and the barcode is not listed. -/
def allowReject (cells : Option (List String)) (cell_barcode : Option String) : Bool :=
  match cells, cell_barcode with
  | some cs, some b => decide (b ∉ cs)
  | _, _ => false

/-- `updateFragmentDict` (fragments.py lines 123-194): fold one aligned
segment into the in-progress fragment dict.  Order of checks follows the
source: barcode extraction, allow-list, mapping quality, missing
`reference_end`; then the soft-clip correction (`rstart + qstart`), the Tn5
shift (reverse: `rend - 5`; forward: `rstart + 4`), and the dict update that
sets only the strand-relevant field. -/
def updateFragmentDict (fragments : FragDict) (segment : AlignedSegment)
    (min_mapq : Int) (cellbarcode : String)
    (readname_barcode : Option (String → Option String))
    (cells : Option (List String)) : Except PyErr FragDict :=
  match getCellBarcode readname_barcode segment cellbarcode with
  | Except.error e => Except.error e
  | Except.ok cell_barcode =>
    if allowReject cells cell_barcode then Except.ok fragments
    else if segment.mapping_quality < min_mapq then Except.ok fragments
    else
      match segment.reference_end with
      | none => Except.ok fragments
      | some rend0 =>
        let rstart0 := segment.reference_start + segment.query_alignment_start
        let rend := rend0 - 5
        let rstart := rstart0 + 4
        match dictLookup fragments segment.query_name with
        | some r =>
          if segment.is_reverse then
            Except.ok (dictSet fragments segment.query_name { r with end_ := some rend })
          else
            Except.ok (dictSet fragments segment.query_name { r with start := some rstart })
        | none =>
          let r0 : FragRec :=
            { chrom := segment.reference_name, start := none, end_ := none,
              cell := cell_barcode }
          if segment.is_reverse then
            Except.ok (dictSet fragments segment.query_name { r0 with end_ := some rend })
          else
            Except.ok (dictSet fragments segment.query_name { r0 with start := some rstart })

/-- Python truthiness of an optional string: `None` and `""` are falsy. -/
def truthyStr : Option String → Bool
  | none => false
  | some s => decide (s ≠ "")

/-- Python truthiness of an optional integer: `None` and `0` are falsy. -/
def truthyInt : Option Int → Bool
  | none => false
  | some n => decide (n ≠ 0)

/-- `all(fragments[key].values())` at fragments.py line 201: the record's
values in insertion order are chrom, start, end, cell. -/
def allTruthy (r : FragRec) : Bool :=
  truthyStr r.chrom && truthyInt r.start && truthyInt r.end_ && truthyStr r.cell

/-- `filterFragmentDict` (fragments.py lines 197-203): iterate over the keys
and delete every entry whose record has a falsy value.  On an
insertion-ordered dict this is an order-preserving filter keeping the
all-truthy entries. -/
def filterFragmentDict (fragments : FragDict) : FragDict :=
  fragments.filter (fun kv => allTruthy kv.2)

/-- The per-partition read loop of `getFragments` (fragments.py lines
109-117): repeatedly reassign the dict to `updateFragmentDict(...)`.  An
exception raised while handling one read propagates and aborts the loop. -/
def processReads (min_mapq : Int) (cellbarcode : String)
    (readname_barcode : Option (String → Option String))
    (cells : Option (List String)) :
    List AlignedSegment → FragDict → Except PyErr FragDict
  | [], d => Except.ok d
  | s :: rest, d =>
    match updateFragmentDict d s min_mapq cellbarcode readname_barcode cells with
    | Except.error e => Except.error e
    | Except.ok d' => processReads min_mapq cellbarcode readname_barcode cells rest d'

/-- Extraction of the completed fragments from a record: the four values of
the dict, available only when all are non-null. -/
def toCompleted (r : FragRec) : Option CompletedFragment :=
  match r.chrom, r.start, r.end_, r.cell with
  | some c, some s, some e, some b => some { chrom := c, start := s, end_ := e, cell := b }
  | _, _, _, _ => none

/-- The value list of the post-filter dict as consumed by
`collapseFragments` (line 29, `list(x.values())`).  After
`filterFragmentDict` every retained field is non-null, so `toCompleted`
succeeds on every entry. -/
def completedList (d : FragDict) : List CompletedFragment :=
  d.filterMap (fun kv => toCompleted kv.2)

/-- The decimal digit character for `d < 10` (ASCII 48 + d). -/
def digitChar (d : Nat) : Char := Char.ofNat (48 + d)

/-- Fuel-driven decimal printer: most significant digit first, prepending to
`acc`.  Fuel `n + 1` always suffices for `n`. -/
def natCharsAux : Nat → Nat → List Char → List Char
  | 0, _, acc => acc
  | fuel + 1, n, acc =>
    if n < 10 then digitChar n :: acc
    else natCharsAux fuel (n / 10) (digitChar (n % 10) :: acc)

/-- The decimal digits of a natural number, modelling Python `str` on a
non-negative int (no leading zeros, `0` printed as "0"). -/
def natChars (n : Nat) : List Char := natCharsAux (n + 1) n []

/-- Python `str` on an int: a minus sign followed by the digits when
negative. -/
def intChars : Int → List Char
  | Int.ofNat n => natChars n
  | Int.negSucc n => '-' :: natChars (n + 1)

/-- Python `str(i)` for an int `i`, as a Lean string. -/
def intStr (i : Int) : String := String.mk (intChars i)

/-- Decimal value of a digit string (used to invert `natChars`). -/
def digitsVal (l : List Char) : Nat :=
  l.foldl (fun acc c => acc * 10 + (c.toNat - 48)) 0

/-- Python `s.split("|")` at the character level: split on every pipe,
keeping empty parts (`"" → [""]`, `"a|" → ["a", ""]`). -/
def splitPipeChars : List Char → List (List Char)
  | [] => [[]]
  | c :: cs =>
    if c = '|' then [] :: splitPipeChars cs
    else
      match splitPipeChars cs with
      | [] => [[c]]
      | p :: ps => (c :: p) :: ps

/-- Python `"|".join(parts)` at the character level. -/
def joinPipeChars : List (List Char) → List Char
  | [] => []
  | [p] => p
  | p :: q :: ps => p ++ '|' :: joinPipeChars (q :: ps)

/-- Python `s.split("|")`. -/
def pipeSplit (s : String) : List String :=
  (splitPipeChars s.data).map String.mk

/-- Python `"|".join(parts)`. -/
def pipeJoin (parts : List String) : String :=
  String.mk (joinPipeChars (parts.map String.data))

/-- Auxiliary loop for `id_lookup`: collect the items not yet seen, in order
of first occurrence. -/
def dedupAux {α : Type} [DecidableEq α] (seen : List α) : List α → List α
  | [] => []
  | x :: xs => if x ∈ seen then dedupAux seen xs else x :: dedupAux (x :: seen) xs

/-- `id_lookup` (fragments.py lines 76-81): assign each distinct item of `l` a
dense surrogate index `0..n-1`.  The Python builds the index mapping by
zipping `set(l)` with `set(idx)` in hash order, an implementation-defined
bijection from the distinct items onto `0..n-1` (spec 4.4 step 3 and 9:
"order is non-deterministic/implementation-defined ... no requirement on
index stability"); we determinize it to first-occurrence order and represent
the mapping by the ordered key list, the index of a key being its position. -/
def id_lookup {α : Type} [DecidableEq α] (l : List α) : List α :=
  dedupAux [] l

/-- The coordinate triple of a completed fragment (specification-side
vocabulary for the theorems; the code itself works on the pipe-joined
string `encodeKey3 (key3 f)`, see `key3Str`). -/
def key3 (f : CompletedFragment) : String × Int × Int :=
  (f.chrom, f.start, f.end_)

/-- The pipe-joined encoding of a coordinate triple,
`"|".join(map(str, x[:3]))` at fragments.py line 31. -/
def encodeKey3 (c : String × Int × Int) : String :=
  pipeJoin [c.1, intStr c.2.1, intStr c.2.2]

/-- The coordinate key of a fragment as the code builds it (line 31). -/
def key3Str (f : CompletedFragment) : String :=
  encodeKey3 (key3 f)

/-- The full composite key of a fragment,
`"|".join(map(str, x))` at fragments.py line 30. -/
def key4Str (f : CompletedFragment) : String :=
  pipeJoin [f.chrom, intStr f.start, intStr f.end_, f.cell]

/-- `collections.Counter` over a list, iterated with `.items()`:
(item, multiplicity) pairs in first-encounter order (line 33). -/
def counterItems (l : List String) : List (String × Nat) :=
  (id_lookup l).map (fun s => (s, (l.filter (fun a => decide (a = s))).length))

/-- The row-key decode of the counts loop, lines 44 and 46:
`"|".join(i[0].split("|")[:3])`. -/
def rowKeyOf (s : String) : String :=
  pipeJoin ((pipeSplit s).take 3)

/-- The barcode decode of the counts loop, line 45: `i[0].split("|")[3]`;
`none` models the `IndexError` when fewer than four parts exist. -/
def bcOf (s : String) : Option String :=
  (pipeSplit s).get? 3

/-- The counts loop of `collapseFragments` (fragments.py lines 39-47): for
every counter item, decode the row key and the barcode and resolve them in
`frag_id_lookup` and `bc_id_lookup`; a decoded key absent from its lookup
raises `KeyError` (this happens when a chromosome name or barcode contains a
pipe character).  Indices are carried as their keys, since the output maps
them back through `frag_inverse`/`bc_inverse`. -/
def buildEntries (fragKeys bcKeys : List String) :
    List (String × Nat) → Except PyErr (List (String × String × Nat))
  | [] => Except.ok []
  | (s, n) :: rest =>
    match bcOf s with
    | none => Except.error PyErr.indexError
    | some bc =>
      if rowKeyOf s ∈ fragKeys then
        if bc ∈ bcKeys then
          match buildEntries fragKeys bcKeys rest with
          | Except.error e => Except.error e
          | Except.ok es => Except.ok ((rowKeyOf s, bc, n) :: es)
        else Except.error PyErr.keyError
      else Except.error PyErr.keyError

/-- The matrix cell `M[row, col]` after `tocsr()` (lines 50-54): the sum of
all COO values attached to that (row key, barcode key) cell — `tocsr` sums
duplicate COO entries. -/
def matEntry (entries : List (String × String × Nat)) (r b : String) : Nat :=
  ((entries.filter (fun e => decide (e.1 = r ∧ e.2.1 = b))).map (fun e => e.2.2)).sum

/-- The row sum `mat.sum(axis=1)` at fragments.py line 60: the row's total
over every barcode column. -/
def rowTotalStr (entries : List (String × String × Nat)) (bcKeys : List String)
    (r : String) : Nat :=
  (bcKeys.map (fun b => matEntry entries r b)).sum

/-- First-maximum scan: `best` is the current leader, and a later column
replaces it only with a strictly larger score.  This is
`np.argmax(mat, axis=1)` (fragments.py line 59), which returns the first
(lowest-index) column attaining the row maximum. -/
def argmaxAux (score : String → Nat) : String → List String → String
  | best, [] => best
  | best, b :: bs =>
    if score best < score b then argmaxAux score b bs else argmaxAux score best bs

/-- The dominant barcode of a row of the count matrix: the first barcode
column (in surrogate-index order) attaining the maximal entry.  The `[]`
branch is unreachable from `collapseFragments`, which fails on an empty
collection before building any row. -/
def argmaxBarcodeStr (entries : List (String × String × Nat))
    (bcKeys : List String) (r : String) : String :=
  match bcKeys with
  | [] => ""
  | b :: bs => argmaxAux (fun x => matEntry entries r x) b bs

/-- `collapseFragments` (fragments.py lines 26-73).  On an empty collection
the shape computation `max(frag_id_lookup.values()) + 1` at line 52 raises
`ValueError: max() arg is an empty sequence`.  Otherwise the counts loop
decodes every composite key (possibly raising `KeyError`, see
`buildEntries`), and one row is emitted per distinct coordinate key, in
surrogate-index order, holding the split coordinate fields, the argmax
barcode and the row sum. -/
def collapseFragments (frags : List CompletedFragment) :
    Except PyErr (List DedupedRow) :=
  if frags = [] then Except.error PyErr.valueError
  else
    match buildEntries (id_lookup (frags.map key3Str))
        (id_lookup (frags.map (fun f => f.cell)))
        (counterItems (frags.map key4Str)) with
    | Except.error e => Except.error e
    | Except.ok entries =>
      Except.ok ((id_lookup (frags.map key3Str)).map (fun k =>
        { fields := pipeSplit k,
          cell := argmaxBarcodeStr entries (id_lookup (frags.map (fun f => f.cell))) k,
          count := rowTotalStr entries (id_lookup (frags.map (fun f => f.cell))) k }))

/-- Specification-side multiplicity: the number of CompletedFragments
carrying coordinate `c` and barcode `b`.  The bridge lemma
`matEntry_entriesFor` proves the matrix cell of the code equals this
whenever no field contains a pipe character. -/
def countKey4 (frags : List CompletedFragment) (c : String × Int × Int) (b : String) : Nat :=
  (frags.filter (fun f => decide (key3 f = c ∧ f.cell = b))).length

/-- Specification-side row total: the sum of `countKey4` over the distinct
barcodes, bridged to `rowTotalStr` under pipe-free fields. -/
def rowTotal (frags : List CompletedFragment) (c : String × Int × Int) : Nat :=
  ((id_lookup (frags.map (fun f => f.cell))).map (fun b => countKey4 frags c b)).sum

/-- Specification-side argmax barcode, bridged to `argmaxBarcodeStr` under
pipe-free fields. -/
def argmaxBarcode (frags : List CompletedFragment) (c : String × Int × Int) : String :=
  match id_lookup (frags.map (fun f => f.cell)) with
  | [] => ""
  | b :: bs => argmaxAux (fun x => countKey4 frags c x) b bs

/-- The value `buildEntries` returns on the counter items of a pipe-free
collection (established by `buildEntries_frags`). -/
def entriesFor (frags : List CompletedFragment) : List (String × String × Nat) :=
  (id_lookup (frags.map key4Str)).map (fun s =>
    (rowKeyOf s, (bcOf s).getD "",
      ((frags.map key4Str).filter (fun a => decide (a = s))).length))

/-- The record held for the read's pair identifier before the update: the
existing entry if present, otherwise the fresh record of fragments.py lines
184-189. -/
def baseRec (d : FragDict) (s : AlignedSegment) (v : Option String) : FragRec :=
  match dictLookup d s.query_name with
  | some r => r
  | none => { chrom := s.reference_name, start := none, end_ := none, cell := v }

/-- The record stored for the read's pair identifier after the update: the
strand-relevant field set on `baseRec`. -/
def newRec (d : FragDict) (s : AlignedSegment) (v : Option String) (re_ : Int) : FragRec :=
  if s.is_reverse then { baseRec d s v with end_ := some (re_ - 5) }
  else { baseRec d s v with
    start := some (s.reference_start + s.query_alignment_start + 4) }

/-- The module-level name `re` of fragments.py.  The import lines 1-7 bind
only `pysam`, `utils`, `sparse`, `np`, `Counter`, `defaultdict`, `Pool` and
`functools`; `re` is never imported, so the name is unbound (`none`) and
evaluating `re.compile` at line 108 raises `NameError`. -/
def reModule : Option (String → String → Option String) := none

/-- The tail of `getFragments` after the read loop (fragments.py lines
118-120): completeness filter, then deduplication; any exception raised by
`collapseFragments` propagates. -/
def getFragmentsRun (reads : List AlignedSegment) (min_mapq : Int)
    (cellbarcode : String) (readname_barcode : Option (String → Option String))
    (cells : Option (List String)) : Except PyErr (List DedupedRow) :=
  match processReads min_mapq cellbarcode readname_barcode cells reads [] with
  | Except.error e => Except.error e
  | Except.ok d => collapseFragments (completedList (filterFragmentDict d))

/-- `getFragments` (fragments.py lines 84-120): the per-partition extraction
routine.  When `readname_barcode` is given, line 108 evaluates
`re.compile(readname_barcode)`, which looks up the unbound module name `re`
(see `reModule`) and raises `NameError` before the read loop starts. -/
def getFragments (reads : List AlignedSegment) (min_mapq : Int)
    (cellbarcode : String) (readname_barcode : Option String)
    (cells : Option (List String)) : Except PyErr (List DedupedRow) :=
  match readname_barcode with
  | some pat =>
    match reModule with
    | none => Except.error PyErr.nameError
    | some reCompile => getFragmentsRun reads min_mapq cellbarcode (some (reCompile pat)) cells
  | none => getFragmentsRun reads min_mapq cellbarcode none cells

/-- Concrete forward read of the spec scenario: `R1+` at
(chr1, ref_start=100, qstart=2), barcode AAAA, mapq 40. -/
def fwdRead : AlignedSegment :=
  { query_name := "R1", reference_name := some "chr1", reference_start := 100,
    reference_end := some 148, query_alignment_start := 2, is_reverse := false,
    mapping_quality := 40, tags := [("CB", "AAAA")] }

/-- Concrete reverse read of the spec scenario: `R1-` at (chr1, ref_end=250). -/
def revRead : AlignedSegment :=
  { query_name := "R1", reference_name := some "chr1", reference_start := 200,
    reference_end := some 250, query_alignment_start := 0, is_reverse := true,
    mapping_quality := 40, tags := [("CB", "AAAA")] }

/-- The reverse mate with mapping quality 20, below the default threshold 30. -/
def lowMapqRev : AlignedSegment :=
  { revRead with mapping_quality := 20 }

/-- A read whose name does not match the configured barcode regex. -/
def badNameRead : AlignedSegment :=
  { fwdRead with query_name := "XZ" }

/-- A compiled-regex model that matches only the read name "R1". -/
def exMatcher : String → Option String :=
  fun q => if q = "R1" then some "AAAA" else none

/-- The record created by folding `fwdRead` into an empty dict. -/
def exRec1 : FragRec :=
  { chrom := some "chr1", start := some 106, end_ := none, cell := some "AAAA" }

/-- The dict after folding `fwdRead` into an empty dict. -/
def exDict1 : FragDict := [("R1", exRec1)]

/-- The dict after folding `fwdRead` and then `revRead` into an empty dict. -/
def exDict2 : FragDict :=
  [("R1", { chrom := some "chr1", start := some 106, end_ := some 245,
            cell := some "AAAA" })]

/-- The three completed fragments of the spec's deduplication scenario. -/
def exFrags : List CompletedFragment :=
  [⟨"chr1", 106, 245, "AAAA"⟩, ⟨"chr1", 106, 245, "AAAA"⟩, ⟨"chr1", 106, 245, "BBBB"⟩]

theorem ex_processReads_pair :
    processReads 30 "CB" none none [fwdRead, revRead] [] = Except.ok exDict2 := rfl

theorem ex_completed_pair :
    completedList (filterFragmentDict exDict2) = [⟨"chr1", 106, 245, "AAAA"⟩] := rfl

theorem ex_collapse_scenario :
    collapseFragments exFrags =
      Except.ok [{ fields := ["chr1", "106", "245"], cell := "AAAA", count := 3 }] := rfl

theorem mem_dedupAux {α : Type} [DecidableEq α] (l : List α) :
    ∀ (seen : List α) (a : α), a ∈ dedupAux seen l ↔ (a ∈ l ∧ a ∉ seen) := by
  induction l with
  | nil => intro seen a; simp [dedupAux]
  | cons x xs ih =>
    intro seen a
    by_cases hx : x ∈ seen
    · rw [show dedupAux seen (x :: xs) = dedupAux seen xs from by simp [dedupAux, hx]]
      rw [ih seen a]
      constructor
      · rintro ⟨h1, h2⟩; exact ⟨List.mem_cons_of_mem x h1, h2⟩
      · rintro ⟨h1, h2⟩
        rcases List.mem_cons.1 h1 with rfl | h1'
        · exact absurd hx h2
        · exact ⟨h1', h2⟩
    · rw [show dedupAux seen (x :: xs) = x :: dedupAux (x :: seen) xs from by
        simp [dedupAux, hx]]
      rw [List.mem_cons, ih (x :: seen) a]
      constructor
      · rintro (rfl | ⟨h1, h2⟩)
        · exact ⟨List.mem_cons_self a xs, hx⟩
        · refine ⟨List.mem_cons_of_mem x h1, fun hs => h2 (List.mem_cons_of_mem x hs)⟩
      · rintro ⟨h1, h2⟩
        rcases List.mem_cons.1 h1 with rfl | h1'
        · exact Or.inl rfl
        · by_cases hax : a = x
          · exact Or.inl hax
          · exact Or.inr ⟨h1', fun hs => by
              rcases List.mem_cons.1 hs with h | h
              · exact hax h
              · exact h2 h⟩

theorem nodup_dedupAux {α : Type} [DecidableEq α] (l : List α) :
    ∀ seen : List α, (dedupAux seen l).Nodup := by
  induction l with
  | nil => intro seen; simp [dedupAux]
  | cons x xs ih =>
    intro seen
    by_cases hx : x ∈ seen
    · rw [show dedupAux seen (x :: xs) = dedupAux seen xs from by simp [dedupAux, hx]]
      exact ih seen
    · rw [show dedupAux seen (x :: xs) = x :: dedupAux (x :: seen) xs from by
        simp [dedupAux, hx]]
      refine List.nodup_cons.2 ⟨fun hmem => ?_, ih (x :: seen)⟩
      exact ((mem_dedupAux xs (x :: seen) x).1 hmem).2 (List.mem_cons_self x seen)

theorem mem_id_lookup {α : Type} [DecidableEq α] (l : List α) (a : α) :
    a ∈ id_lookup l ↔ a ∈ l := by
  rw [id_lookup, mem_dedupAux]
  simp

theorem nodup_id_lookup {α : Type} [DecidableEq α] (l : List α) :
    (id_lookup l).Nodup :=
  nodup_dedupAux l []

theorem dedupAux_map {α β : Type} [DecidableEq α] [DecidableEq β] (g : α → β) :
    ∀ (l seen : List α),
      (∀ a, (a ∈ l ∨ a ∈ seen) → ∀ a', (a' ∈ l ∨ a' ∈ seen) → g a = g a' → a = a') →
      dedupAux (seen.map g) (l.map g) = (dedupAux seen l).map g := by
  intro l
  induction l with
  | nil => intro seen _; rfl
  | cons x xs ih =>
    intro seen hg
    have hg' : ∀ a, (a ∈ xs ∨ a ∈ x :: seen) → ∀ a', (a' ∈ xs ∨ a' ∈ x :: seen) →
        g a = g a' → a = a' := by
      intro a ha a' ha' hgg
      apply hg a _ a' _ hgg
      · rcases ha with h | h
        · exact Or.inl (List.mem_cons_of_mem x h)
        · rcases List.mem_cons.1 h with rfl | h'
          · exact Or.inl (List.mem_cons_self a xs)
          · exact Or.inr h'
      · rcases ha' with h | h
        · exact Or.inl (List.mem_cons_of_mem x h)
        · rcases List.mem_cons.1 h with rfl | h'
          · exact Or.inl (List.mem_cons_self a' xs)
          · exact Or.inr h'
    have hgweak : ∀ a, (a ∈ xs ∨ a ∈ seen) → ∀ a', (a' ∈ xs ∨ a' ∈ seen) →
        g a = g a' → a = a' := by
      intro a ha a' ha' hgg
      apply hg a _ a' _ hgg
      · rcases ha with h | h
        · exact Or.inl (List.mem_cons_of_mem x h)
        · exact Or.inr h
      · rcases ha' with h | h
        · exact Or.inl (List.mem_cons_of_mem x h)
        · exact Or.inr h
    by_cases hx : x ∈ seen
    · have hgx : g x ∈ seen.map g := List.mem_map_of_mem g hx
      rw [List.map_cons,
        show dedupAux (seen.map g) (g x :: xs.map g) = dedupAux (seen.map g) (xs.map g)
          from by simp [dedupAux, hgx],
        show dedupAux seen (x :: xs) = dedupAux seen xs from by simp [dedupAux, hx]]
      exact ih seen hgweak
    · have hgx : g x ∉ seen.map g := by
        intro hmem
        obtain ⟨b, hb, hgb⟩ := List.mem_map.1 hmem
        have hbx : b = x :=
          hg b (Or.inr hb) x (Or.inl (List.mem_cons_self x xs)) hgb
        exact hx (hbx ▸ hb)
      rw [List.map_cons,
        show dedupAux (seen.map g) (g x :: xs.map g)
            = g x :: dedupAux (g x :: seen.map g) (xs.map g) from by simp [dedupAux, hgx],
        show dedupAux seen (x :: xs) = x :: dedupAux (x :: seen) xs from by
          simp [dedupAux, hx]]
      rw [show (g x :: seen.map g) = (x :: seen).map g from rfl,
        ih (x :: seen) hg']
      rfl

theorem id_lookup_map_inj {α β : Type} [DecidableEq α] [DecidableEq β] (g : α → β)
    (l : List α) (hg : ∀ a ∈ l, ∀ a' ∈ l, g a = g a' → a = a') :
    id_lookup (l.map g) = (id_lookup l).map g := by
  unfold id_lookup
  rw [show ([] : List β) = ([] : List α).map g from rfl]
  refine dedupAux_map g l [] (fun a ha a' ha' hgg => ?_)
  rcases ha with h | h
  · rcases ha' with h' | h'
    · exact hg a h a' h' hgg
    · cases h'
  · cases h

theorem sum_map_const_zero {κ : Type} (keys : List κ) :
    (keys.map (fun _ => (0 : Nat))).sum = 0 := by
  induction keys with
  | nil => rfl
  | cons k ks ih => simp [ih]

theorem sum_map_add {κ : Type} (keys : List κ) (g h : κ → Nat) :
    (keys.map (fun c => g c + h c)).sum = (keys.map g).sum + (keys.map h).sum := by
  induction keys with
  | nil => rfl
  | cons k ks ih => simp [ih]; omega

theorem sum_indicator_of_not_mem {κ : Type} [DecidableEq κ] (keys : List κ) (x : κ)
    (hx : x ∉ keys) : (keys.map (fun c => if x = c then 1 else 0)).sum = 0 := by
  induction keys with
  | nil => rfl
  | cons k ks ih =>
    rw [List.mem_cons, not_or] at hx
    simp [hx.1, ih hx.2]

theorem sum_indicator_of_mem {κ : Type} [DecidableEq κ] (keys : List κ) (x : κ)
    (hnd : keys.Nodup) (hx : x ∈ keys) :
    (keys.map (fun c => if x = c then 1 else 0)).sum = 1 := by
  induction keys with
  | nil => cases hx
  | cons k ks ih =>
    rcases List.nodup_cons.1 hnd with ⟨hk, hnd'⟩
    rcases List.mem_cons.1 hx with rfl | hx'
    · simp [sum_indicator_of_not_mem ks x hk]
    · have hxk : x ≠ k := fun h => hk (h ▸ hx')
      simp [hxk, ih hnd' hx']

theorem sum_filter_lengths {α κ : Type} [DecidableEq κ] (f : α → κ) (keys : List κ)
    (hnd : keys.Nodup) :
    ∀ l : List α, (∀ a ∈ l, f a ∈ keys) →
      (keys.map (fun c => (l.filter (fun a => decide (f a = c))).length)).sum = l.length := by
  intro l
  induction l with
  | nil =>
    intro _
    simp [sum_map_const_zero]
  | cons a l ih =>
    intro hcov
    have hfa : f a ∈ keys := hcov a (List.mem_cons_self a l)
    have hstep : (fun c => (((a :: l).filter (fun x => decide (f x = c))).length))
        = fun c => (if f a = c then 1 else 0)
            + ((l.filter (fun x => decide (f x = c))).length) := by
      funext c
      by_cases h : f a = c
      · simp [List.filter_cons, h]; omega
      · simp [List.filter_cons, h]
    rw [hstep, sum_map_add, sum_indicator_of_mem keys (f a) hnd hfa,
      ih (fun x hx => hcov x (List.mem_cons_of_mem a hx))]
    simp [Nat.add_comm]

theorem filter_of_map {α β : Type} (g : α → β) (p : β → Bool) (l : List α) :
    (l.map g).filter p = (l.filter (fun a => p (g a))).map g := by
  induction l with
  | nil => rfl
  | cons a l ih => cases h : p (g a) <;> simp [List.filter_cons, h, ih]

theorem map_filter_len {α β : Type} (g : α → β) (p : β → Bool) (l : List α) :
    ((l.map g).filter p).length = (l.filter (fun a => p (g a))).length := by
  rw [filter_of_map, List.length_map]

theorem filter_congr_mem {α : Type} (l : List α) (p q : α → Bool)
    (h : ∀ a ∈ l, p a = q a) : l.filter p = l.filter q := by
  induction l with
  | nil => rfl
  | cons a l ih =>
    rw [List.filter_cons, List.filter_cons, h a (List.mem_cons_self a l),
      ih (fun x hx => h x (List.mem_cons_of_mem a hx))]

theorem map_congr_mem {α β : Type} (l : List α) (f g : α → β)
    (h : ∀ a ∈ l, f a = g a) : l.map f = l.map g := by
  induction l with
  | nil => rfl
  | cons a l ih =>
    rw [List.map_cons, List.map_cons, h a (List.mem_cons_self a l),
      ih (fun x hx => h x (List.mem_cons_of_mem a hx))]

theorem sum_ite_filter {α : Type} (l : List α) (q : α → Bool) (g : α → Nat) :
    (l.map (fun s => if q s then g s else 0)).sum = ((l.filter q).map g).sum := by
  induction l with
  | nil => rfl
  | cons a l ih => cases h : q a <;> simp [List.filter_cons, h, ih]

theorem filter_eq_comm (K : List String) (q : String → Bool) (s : String) :
    ((K.filter q).filter (fun a => decide (a = s))).length
      = if q s then ((K.filter (fun a => decide (a = s))).length) else 0 := by
  rw [List.filter_filter]
  cases hq : q s
  · rw [if_neg (by simp [hq])]
    rw [List.length_eq_zero, List.filter_eq_nil_iff]
    intro a _
    simp only [Bool.and_eq_true, decide_eq_true_eq, not_and]
    intro has
    rw [has, hq]
    simp
  · rw [if_pos (by simp [hq])]
    congr 1
    apply filter_congr_mem
    intro a _
    by_cases has : a = s
    · rw [has, hq]; simp
    · simp [has]

theorem sum_mult_filter (K : List String) (q : String → Bool) :
    (((id_lookup K).filter q).map
        (fun s => (K.filter (fun a => decide (a = s))).length)).sum
      = (K.filter q).length := by
  rw [← sum_ite_filter (id_lookup K) q
    (fun s => (K.filter (fun a => decide (a = s))).length)]
  have hpart := sum_filter_lengths (fun a : String => a) (id_lookup K)
    (nodup_id_lookup K) (K.filter q)
    (fun a ha => (mem_id_lookup K a).2 (List.mem_filter.1 ha).1)
  rw [← hpart]
  congr 1
  apply map_congr_mem
  intro s _
  exact (filter_eq_comm K q s).symm

theorem filter_and_comm (frags : List CompletedFragment) (c : String × Int × Int)
    (b : String) :
    frags.filter (fun f => decide (key3 f = c ∧ f.cell = b)) =
      (frags.filter (fun f => decide (key3 f = c))).filter
        (fun f => decide (f.cell = b)) := by
  rw [List.filter_filter]
  congr 1
  funext f
  by_cases h1 : key3 f = c <;> by_cases h2 : f.cell = b <;> simp [h1, h2]

theorem countKey4_eq_zero (frags : List CompletedFragment) (c : String × Int × Int)
    (b : String) (hb : b ∉ frags.map (fun f => f.cell)) : countKey4 frags c b = 0 := by
  unfold countKey4
  rw [List.length_eq_zero, List.filter_eq_nil_iff]
  intro f hf
  simp only [decide_eq_true_eq, not_and]
  intro _ hcell
  exact hb (hcell ▸ List.mem_map_of_mem (fun g : CompletedFragment => g.cell) hf)

theorem rowTotal_eq (frags : List CompletedFragment) (c : String × Int × Int) :
    rowTotal frags c = (frags.filter (fun f => decide (key3 f = c))).length := by
  unfold rowTotal
  have hsplit : (fun b => countKey4 frags c b) = fun b =>
      (((frags.filter (fun f => decide (key3 f = c))).filter
        (fun f => decide (f.cell = b))).length) :=
    funext (fun b => congrArg List.length (filter_and_comm frags c b))
  rw [hsplit]
  refine sum_filter_lengths (fun f : CompletedFragment => f.cell)
    (id_lookup (frags.map (fun f => f.cell))) (nodup_id_lookup _) _ (fun x hx => ?_)
  have hx' : x ∈ frags := (List.mem_filter.1 hx).1
  exact (mem_id_lookup _ _).2
    (List.mem_map_of_mem (fun g : CompletedFragment => g.cell) hx')

theorem argmaxAux_spec (score : String → Nat) :
    ∀ (bs : List String) (best : String),
      argmaxAux score best bs ∈ best :: bs ∧
      ∀ b ∈ best :: bs, score b ≤ score (argmaxAux score best bs) := by
  intro bs
  induction bs with
  | nil =>
    intro best
    refine ⟨List.mem_cons_self best [], fun b hb => ?_⟩
    rcases List.mem_cons.1 hb with rfl | h
    · exact Nat.le_refl _
    · cases h
  | cons x xs ih =>
    intro best
    by_cases hlt : score best < score x
    · rw [show argmaxAux score best (x :: xs) = argmaxAux score x xs from by
        simp [argmaxAux, hlt]]
      obtain ⟨hmem, hge⟩ := ih x
      refine ⟨List.mem_cons_of_mem best hmem, fun b hb => ?_⟩
      rcases List.mem_cons.1 hb with rfl | hb'
      · exact Nat.le_trans (Nat.le_of_lt hlt) (hge x (List.mem_cons_self x xs))
      · exact hge b hb'
    · rw [show argmaxAux score best (x :: xs) = argmaxAux score best xs from by
        simp [argmaxAux, hlt]]
      obtain ⟨hmem, hge⟩ := ih best
      constructor
      · rcases List.mem_cons.1 hmem with h | h
        · rw [h]; exact List.mem_cons_self _ _
        · exact List.mem_cons_of_mem best (List.mem_cons_of_mem x h)
      · intro b hb
        rcases List.mem_cons.1 hb with rfl | hb'
        · exact hge b (List.mem_cons_self b xs)
        · rcases List.mem_cons.1 hb' with rfl | hb''
          · exact Nat.le_trans (Nat.le_of_not_lt hlt)
              (hge best (List.mem_cons_self best xs))
          · exact hge b (List.mem_cons_of_mem best hb'')

theorem argmaxBarcode_ge (frags : List CompletedFragment) (c : String × Int × Int)
    (b : String) :
    countKey4 frags c b ≤ countKey4 frags c (argmaxBarcode frags c) := by
  by_cases hb : b ∈ frags.map (fun f => f.cell)
  · have hb' : b ∈ id_lookup (frags.map (fun f => f.cell)) := (mem_id_lookup _ _).2 hb
    unfold argmaxBarcode
    cases hkey : id_lookup (frags.map (fun f => f.cell)) with
    | nil => rw [hkey] at hb'; cases hb'
    | cons x xs =>
      rw [hkey] at hb'
      exact (argmaxAux_spec (fun y => countKey4 frags c y) xs x).2 b hb'
  · rw [countKey4_eq_zero frags c b hb]
    exact Nat.zero_le _

theorem digitChar_toNat (d : Nat) (h : d < 10) : (digitChar d).toNat = 48 + d := by
  interval_cases d <;> decide

theorem digitChar_ne_pipe (d : Nat) (h : d < 10) : digitChar d ≠ '|' := by
  interval_cases d <;> decide

theorem digitChar_ne_dash (d : Nat) (h : d < 10) : digitChar d ≠ '-' := by
  interval_cases d <;> decide

theorem natCharsAux_append : ∀ (fuel n : Nat) (acc : List Char),
    natCharsAux fuel n acc = natCharsAux fuel n [] ++ acc := by
  intro fuel
  induction fuel with
  | zero => intro n acc; simp [natCharsAux]
  | succ fuel ih =>
    intro n acc
    by_cases hn : n < 10
    · simp [natCharsAux, hn]
    · rw [show natCharsAux (fuel + 1) n acc
          = natCharsAux fuel (n / 10) (digitChar (n % 10) :: acc) from by
        simp [natCharsAux, hn]]
      rw [show natCharsAux (fuel + 1) n []
          = natCharsAux fuel (n / 10) [digitChar (n % 10)] from by
        simp [natCharsAux, hn]]
      rw [ih (n / 10) (digitChar (n % 10) :: acc), ih (n / 10) [digitChar (n % 10)]]
      simp

theorem natCharsAux_mem_digit : ∀ (fuel n : Nat) (c : Char),
    c ∈ natCharsAux fuel n [] → ∃ d, d < 10 ∧ c = digitChar d := by
  intro fuel
  induction fuel with
  | zero => intro n c h; cases h
  | succ fuel ih =>
    intro n c h
    by_cases hn : n < 10
    · rw [show natCharsAux (fuel + 1) n [] = [digitChar n] from by
        simp [natCharsAux, hn]] at h
      rcases List.mem_cons.1 h with rfl | h'
      · exact ⟨n, hn, rfl⟩
      · cases h'
    · rw [show natCharsAux (fuel + 1) n []
          = natCharsAux fuel (n / 10) [digitChar (n % 10)] from by
        simp [natCharsAux, hn]] at h
      rw [natCharsAux_append fuel (n / 10) [digitChar (n % 10)]] at h
      rcases List.mem_append.1 h with h' | h'
      · exact ih (n / 10) c h'
      · rcases List.mem_cons.1 h' with rfl | h''
        · exact ⟨n % 10, Nat.mod_lt n (by omega), rfl⟩
        · cases h''

theorem natChars_mem_digit (n : Nat) (c : Char) (h : c ∈ natChars n) :
    ∃ d, d < 10 ∧ c = digitChar d :=
  natCharsAux_mem_digit (n + 1) n c h

theorem natChars_no_pipe (n : Nat) : '|' ∉ natChars n := by
  intro h
  obtain ⟨d, hd, hc⟩ := natChars_mem_digit n '|' h
  exact digitChar_ne_pipe d hd hc.symm

theorem natChars_no_dash (n : Nat) : '-' ∉ natChars n := by
  intro h
  obtain ⟨d, hd, hc⟩ := natChars_mem_digit n '-' h
  exact digitChar_ne_dash d hd hc.symm

theorem natCharsAux_val : ∀ (fuel n : Nat), n < fuel →
    digitsVal (natCharsAux fuel n []) = n := by
  intro fuel
  induction fuel with
  | zero => intro n h; omega
  | succ fuel ih =>
    intro n h
    by_cases hn : n < 10
    · rw [show natCharsAux (fuel + 1) n [] = [digitChar n] from by
        simp [natCharsAux, hn]]
      rw [show digitsVal [digitChar n] = (digitChar n).toNat - 48 from by
        simp [digitsVal]]
      rw [digitChar_toNat n hn]
      omega
    · rw [show natCharsAux (fuel + 1) n []
          = natCharsAux fuel (n / 10) [digitChar (n % 10)] from by
        simp [natCharsAux, hn]]
      rw [natCharsAux_append fuel (n / 10) [digitChar (n % 10)]]
      have hdiv : n / 10 < fuel := by omega
      rw [show digitsVal (natCharsAux fuel (n / 10) [] ++ [digitChar (n % 10)])
          = digitsVal (natCharsAux fuel (n / 10) []) * 10 + ((digitChar (n % 10)).toNat - 48)
          from by
        unfold digitsVal
        rw [List.foldl_append]
        rfl]
      rw [ih (n / 10) hdiv, digitChar_toNat (n % 10) (Nat.mod_lt n (by omega))]
      omega

theorem natChars_val (n : Nat) : digitsVal (natChars n) = n :=
  natCharsAux_val (n + 1) n (Nat.lt_succ_self n)

theorem natChars_inj {m n : Nat} (h : natChars m = natChars n) : m = n := by
  have hm := natChars_val m
  rw [h, natChars_val] at hm
  exact hm.symm

theorem intChars_no_pipe (i : Int) : '|' ∉ intChars i := by
  cases i with
  | ofNat n => exact natChars_no_pipe n
  | negSucc n =>
    intro h
    rcases List.mem_cons.1 h with h' | h'
    · exact absurd h' (by decide)
    · exact natChars_no_pipe (n + 1) h'

theorem intChars_inj : ∀ {i j : Int}, intChars i = intChars j → i = j := by
  intro i j h
  cases i with
  | ofNat m =>
    cases j with
    | ofNat n => exact congrArg Int.ofNat (natChars_inj h)
    | negSucc n =>
      exfalso
      have hmem : '-' ∈ natChars m := by
        rw [show intChars (Int.ofNat m) = natChars m from rfl] at h
        rw [h]
        exact List.mem_cons_self _ _
      exact natChars_no_dash m hmem
  | negSucc m =>
    cases j with
    | ofNat n =>
      exfalso
      have hmem : '-' ∈ natChars n := by
        rw [show intChars (Int.ofNat n) = natChars n from rfl] at h
        rw [← h]
        exact List.mem_cons_self _ _
      exact natChars_no_dash n hmem
    | negSucc n =>
      have h2 : natChars (m + 1) = natChars (n + 1) := (List.cons.inj h).2
      have h3 : m + 1 = n + 1 := natChars_inj h2
      have h4 : m = n := by omega
      rw [h4]

theorem intStr_no_pipe (i : Int) : '|' ∉ (intStr i).data :=
  intChars_no_pipe i

theorem intStr_inj {i j : Int} (h : intStr i = intStr j) : i = j :=
  intChars_inj (congrArg String.data h)

theorem splitPipeChars_ne_nil (l : List Char) : splitPipeChars l ≠ [] := by
  induction l with
  | nil => simp [splitPipeChars]
  | cons c cs ih =>
    by_cases hc : c = '|'
    · simp [splitPipeChars, hc]
    · cases hsp : splitPipeChars cs with
      | nil => exact absurd hsp ih
      | cons p ps => simp [splitPipeChars, hc, hsp]

theorem splitPipeChars_no_pipe (l : List Char) (h : '|' ∉ l) :
    splitPipeChars l = [l] := by
  induction l with
  | nil => rfl
  | cons c cs ih =>
    have hc : ¬ c = '|' := fun hh => h (hh ▸ List.mem_cons_self c cs)
    have htl : '|' ∉ cs := fun hm => h (List.mem_cons_of_mem c hm)
    simp [splitPipeChars, hc, ih htl]

theorem splitPipeChars_append : ∀ (a rest : List Char), '|' ∉ a →
    splitPipeChars (a ++ '|' :: rest) = a :: splitPipeChars rest := by
  intro a
  induction a with
  | nil => intro rest _; simp [splitPipeChars]
  | cons c cs ih =>
    intro rest h
    have hc : ¬ c = '|' := fun hh => h (hh ▸ List.mem_cons_self c cs)
    have htl : '|' ∉ cs := fun hm => h (List.mem_cons_of_mem c hm)
    rw [List.cons_append]
    simp [splitPipeChars, hc, ih rest htl]

theorem joinPipe_split : ∀ (parts : List (List Char)), parts ≠ [] →
    (∀ p ∈ parts, '|' ∉ p) → splitPipeChars (joinPipeChars parts) = parts := by
  intro parts
  induction parts with
  | nil => intro h _; exact absurd rfl h
  | cons p rest ih =>
    intro _ hp
    cases rest with
    | nil =>
      rw [show joinPipeChars [p] = p from rfl]
      rw [splitPipeChars_no_pipe p (hp p (List.mem_cons_self p []))]
    | cons q ps =>
      rw [show joinPipeChars (p :: q :: ps) = p ++ '|' :: joinPipeChars (q :: ps) from rfl]
      rw [splitPipeChars_append p _ (hp p (List.mem_cons_self _ _))]
      rw [ih (List.cons_ne_nil q ps) (fun x hx => hp x (List.mem_cons_of_mem p hx))]

theorem pipeSplit_pipeJoin (parts : List String) (hne : parts ≠ [])
    (hp : ∀ p ∈ parts, '|' ∉ p.data) :
    pipeSplit (pipeJoin parts) = parts := by
  unfold pipeSplit pipeJoin
  rw [show (String.mk (joinPipeChars (parts.map String.data))).data
      = joinPipeChars (parts.map String.data) from rfl]
  rw [joinPipe_split (parts.map String.data)
      (fun hmap => hne (List.map_eq_nil_iff.mp hmap))
      (fun p hpm => by
        obtain ⟨q, hq, rfl⟩ := List.mem_map.1 hpm
        exact hp q hq)]
  rw [List.map_map]
  rw [show (String.mk ∘ String.data) = (id : String → String) from
    funext (fun s => rfl)]
  exact List.map_id parts

theorem pipeSplit_encodeKey3 (c : String × Int × Int) (hc : '|' ∉ c.1.data) :
    pipeSplit (encodeKey3 c) = [c.1, intStr c.2.1, intStr c.2.2] := by
  apply pipeSplit_pipeJoin _ (by simp)
  intro p hp
  simp only [List.mem_cons, List.not_mem_nil, or_false] at hp
  rcases hp with rfl | rfl | rfl
  · exact hc
  · exact intStr_no_pipe _
  · exact intStr_no_pipe _

theorem pipeSplit_key4Str (f : CompletedFragment) (h1 : '|' ∉ f.chrom.data)
    (h2 : '|' ∉ f.cell.data) :
    pipeSplit (key4Str f) = [f.chrom, intStr f.start, intStr f.end_, f.cell] := by
  apply pipeSplit_pipeJoin _ (by simp)
  intro p hp
  simp only [List.mem_cons, List.not_mem_nil, or_false] at hp
  rcases hp with rfl | rfl | rfl | rfl
  · exact h1
  · exact intStr_no_pipe _
  · exact intStr_no_pipe _
  · exact h2

theorem rowKeyOf_key4Str (f : CompletedFragment) (h1 : '|' ∉ f.chrom.data)
    (h2 : '|' ∉ f.cell.data) : rowKeyOf (key4Str f) = key3Str f := by
  unfold rowKeyOf
  rw [pipeSplit_key4Str f h1 h2]
  rfl

theorem bcOf_key4Str (f : CompletedFragment) (h1 : '|' ∉ f.chrom.data)
    (h2 : '|' ∉ f.cell.data) : bcOf (key4Str f) = some f.cell := by
  unfold bcOf
  rw [pipeSplit_key4Str f h1 h2]
  rfl

theorem encodeKey3_inj (c c' : String × Int × Int) (hc : '|' ∉ c.1.data)
    (hc' : '|' ∉ c'.1.data) (h : encodeKey3 c = encodeKey3 c') : c = c' := by
  have h2 := congrArg pipeSplit h
  rw [pipeSplit_encodeKey3 c hc, pipeSplit_encodeKey3 c' hc'] at h2
  obtain ⟨a, s, e⟩ := c
  obtain ⟨a', s', e'⟩ := c'
  simp only [List.cons.injEq, and_true] at h2
  obtain ⟨ha, hs, he⟩ := h2
  rw [ha, intStr_inj hs, intStr_inj he]

theorem decodeFields_inj (c c' : String × Int × Int)
    (h : [c.1, intStr c.2.1, intStr c.2.2] = [c'.1, intStr c'.2.1, intStr c'.2.2]) :
    c = c' := by
  obtain ⟨a, s, e⟩ := c
  obtain ⟨a', s', e'⟩ := c'
  simp only [List.cons.injEq, and_true] at h
  obtain ⟨ha, hs, he⟩ := h
  rw [ha, intStr_inj hs, intStr_inj he]

theorem buildEntries_ok (fragKeys bcKeys : List String) :
    ∀ items : List (String × Nat),
      (∀ sn ∈ items, ∃ bc, bcOf sn.1 = some bc ∧ rowKeyOf sn.1 ∈ fragKeys ∧ bc ∈ bcKeys) →
      buildEntries fragKeys bcKeys items =
        Except.ok (items.map (fun sn => (rowKeyOf sn.1, (bcOf sn.1).getD "", sn.2))) := by
  intro items
  induction items with
  | nil => intro _; rfl
  | cons sn rest ih =>
    intro h
    obtain ⟨bc, hbc, hrow, hbck⟩ := h sn (List.mem_cons_self sn rest)
    obtain ⟨s, n⟩ := sn
    have hrest := ih (fun x hx => h x (List.mem_cons_of_mem _ hx))
    simp [buildEntries, hbc, hrow, hbck, hrest]

theorem buildEntries_frags (frags : List CompletedFragment)
    (hp : ∀ f ∈ frags, '|' ∉ f.chrom.data ∧ '|' ∉ f.cell.data) :
    buildEntries (id_lookup (frags.map key3Str))
      (id_lookup (frags.map (fun f => f.cell)))
      (counterItems (frags.map key4Str)) = Except.ok (entriesFor frags) := by
  have hyp : ∀ sn ∈ (id_lookup (frags.map key4Str)).map
      (fun s => (s, ((frags.map key4Str).filter (fun a => decide (a = s))).length)),
      ∃ bc, bcOf sn.1 = some bc ∧ rowKeyOf sn.1 ∈ id_lookup (frags.map key3Str) ∧
        bc ∈ id_lookup (frags.map (fun f => f.cell)) := by
    intro sn hsn
    obtain ⟨s, hs, rfl⟩ := List.mem_map.1 hsn
    have hsK : s ∈ frags.map key4Str := (mem_id_lookup _ _).1 hs
    obtain ⟨f, hf, rfl⟩ := List.mem_map.1 hsK
    refine ⟨f.cell, bcOf_key4Str f (hp f hf).1 (hp f hf).2, ?_, ?_⟩
    · rw [rowKeyOf_key4Str f (hp f hf).1 (hp f hf).2]
      exact (mem_id_lookup _ _).2 (List.mem_map_of_mem key3Str hf)
    · exact (mem_id_lookup _ _).2
        (List.mem_map_of_mem (fun g : CompletedFragment => g.cell) hf)
  unfold counterItems entriesFor
  rw [buildEntries_ok _ _ _ hyp, List.map_map]
  rfl

theorem matEntry_entriesFor (frags : List CompletedFragment)
    (hp : ∀ f ∈ frags, '|' ∉ f.chrom.data ∧ '|' ∉ f.cell.data)
    (c : String × Int × Int) (hc : '|' ∉ c.1.data) (b : String) :
    matEntry (entriesFor frags) (encodeKey3 c) b = countKey4 frags c b := by
  have h1 : matEntry (entriesFor frags) (encodeKey3 c) b
      = ((frags.map key4Str).filter
          (fun s => decide (rowKeyOf s = encodeKey3 c ∧ (bcOf s).getD "" = b))).length := by
    unfold matEntry entriesFor
    rw [filter_of_map, List.map_map]
    exact sum_mult_filter (frags.map key4Str)
      (fun s => decide (rowKeyOf s = encodeKey3 c ∧ (bcOf s).getD "" = b))
  rw [h1, map_filter_len]
  unfold countKey4
  congr 1
  apply filter_congr_mem
  intro f hf
  rw [rowKeyOf_key4Str f (hp f hf).1 (hp f hf).2,
    bcOf_key4Str f (hp f hf).1 (hp f hf).2]
  simp only [Option.getD_some]
  apply decide_eq_decide.mpr
  constructor
  · rintro ⟨hk, hb⟩
    refine ⟨?_, hb⟩
    exact encodeKey3_inj (key3 f) c (hp f hf).1 hc hk
  · rintro ⟨hk, hb⟩
    exact ⟨by rw [key3Str, hk], hb⟩

theorem collapseFragments_noPipe (frags : List CompletedFragment) (h : frags ≠ [])
    (hp : ∀ f ∈ frags, '|' ∉ f.chrom.data ∧ '|' ∉ f.cell.data) :
    collapseFragments frags = Except.ok
      ((id_lookup (frags.map key3)).map (fun c =>
        { fields := [c.1, intStr c.2.1, intStr c.2.2],
          cell := argmaxBarcode frags c,
          count := rowTotal frags c })) := by
  have hkeys : id_lookup (frags.map key3Str)
      = (id_lookup (frags.map key3)).map encodeKey3 := by
    rw [show frags.map key3Str = (frags.map key3).map encodeKey3 from by
      rw [List.map_map]; rfl]
    refine id_lookup_map_inj encodeKey3 (frags.map key3) ?_
    intro a ha a' ha' hgg
    obtain ⟨f, hf, rfl⟩ := List.mem_map.1 ha
    obtain ⟨f', hf', rfl⟩ := List.mem_map.1 ha'
    exact encodeKey3_inj _ _ (hp f hf).1 (hp f' hf').1 hgg
  have hmain : (id_lookup (frags.map key3Str)).map (fun k =>
      ({ fields := pipeSplit k,
         cell := argmaxBarcodeStr (entriesFor frags)
           (id_lookup (frags.map (fun f => f.cell))) k,
         count := rowTotalStr (entriesFor frags)
           (id_lookup (frags.map (fun f => f.cell))) k } : DedupedRow))
      = (id_lookup (frags.map key3)).map (fun c =>
        { fields := [c.1, intStr c.2.1, intStr c.2.2],
          cell := argmaxBarcode frags c,
          count := rowTotal frags c }) := by
    rw [hkeys, List.map_map]
    apply map_congr_mem
    intro c hc
    obtain ⟨f, hf, hkey⟩ := List.mem_map.1 ((mem_id_lookup _ _).1 hc)
    have hc1 : '|' ∉ c.1.data := by
      rw [← hkey]
      exact (hp f hf).1
    have hmatfun : (fun x => matEntry (entriesFor frags) (encodeKey3 c) x)
        = fun x => countKey4 frags c x :=
      funext (fun b => matEntry_entriesFor frags hp c hc1 b)
    have hfields : pipeSplit (encodeKey3 c) = [c.1, intStr c.2.1, intStr c.2.2] :=
      pipeSplit_encodeKey3 c hc1
    have hcell : argmaxBarcodeStr (entriesFor frags)
        (id_lookup (frags.map (fun f => f.cell))) (encodeKey3 c)
        = argmaxBarcode frags c := by
      unfold argmaxBarcodeStr argmaxBarcode
      cases hbk : id_lookup (frags.map (fun f => f.cell)) with
      | nil => rfl
      | cons b bs => rw [hmatfun]
    have hcount : rowTotalStr (entriesFor frags)
        (id_lookup (frags.map (fun f => f.cell))) (encodeKey3 c)
        = rowTotal frags c := by
      unfold rowTotalStr rowTotal
      rw [hmatfun]
    simp only [Function.comp_apply]
    rw [hfields, hcell, hcount]
  unfold collapseFragments
  rw [if_neg h, buildEntries_frags frags hp]
  exact congrArg Except.ok hmain

theorem dictLookup_dictSet_self (d : FragDict) (k : String) (v : FragRec) :
    dictLookup (dictSet d k v) k = some v := by
  induction d with
  | nil => simp [dictSet, dictLookup]
  | cons kv rest ih =>
    obtain ⟨k', v'⟩ := kv
    by_cases h : k' = k
    · simp [dictSet, dictLookup, h]
    · simp [dictSet, dictLookup, h, ih]

theorem dictLookup_dictSet_ne (d : FragDict) (k k' : String) (v : FragRec)
    (h : k' ≠ k) : dictLookup (dictSet d k v) k' = dictLookup d k' := by
  induction d with
  | nil => simp [dictSet, dictLookup, Ne.symm h]
  | cons kv rest ih =>
    obtain ⟨k₀, v₀⟩ := kv
    by_cases h0 : k₀ = k
    · subst h0
      simp [dictSet, dictLookup, Ne.symm h]
    · simp [dictSet, dictLookup, h0, ih]

theorem dictSet_dictSet (d : FragDict) (k : String) (v w : FragRec) :
    dictSet (dictSet d k v) k w = dictSet d k w := by
  induction d with
  | nil => simp [dictSet]
  | cons kv rest ih =>
    obtain ⟨k₀, v₀⟩ := kv
    by_cases h : k₀ = k
    · simp [dictSet, h]
    · simp [dictSet, h, ih]

theorem updateFragmentDict_accepted (d : FragDict) (s : AlignedSegment) (mq : Int)
    (cbt : String) (rb : Option (String → Option String)) (cells : Option (List String))
    (v : Option String) (re_ : Int)
    (hbc : getCellBarcode rb s cbt = Except.ok v)
    (hallow : allowReject cells v = false)
    (hmapq : ¬ s.mapping_quality < mq)
    (hre : s.reference_end = some re_) :
    updateFragmentDict d s mq cbt rb cells =
      Except.ok (dictSet d s.query_name (newRec d s v re_)) := by
  cases hlook : dictLookup d s.query_name with
  | none =>
    cases hrev : s.is_reverse with
    | false =>
      simp [updateFragmentDict, hbc, hallow, hmapq, hre, hlook, hrev, newRec, baseRec]
    | true =>
      simp [updateFragmentDict, hbc, hallow, hmapq, hre, hlook, hrev, newRec, baseRec]
  | some r =>
    cases hrev : s.is_reverse with
    | false =>
      simp [updateFragmentDict, hbc, hallow, hmapq, hre, hlook, hrev, newRec, baseRec]
    | true =>
      simp [updateFragmentDict, hbc, hallow, hmapq, hre, hlook, hrev, newRec, baseRec]

theorem allTruthy_iff (r : FragRec) :
    allTruthy r = true ↔
      ¬(r.chrom = none ∨ r.chrom = some "" ∨ r.start = none ∨ r.start = some 0 ∨
        r.end_ = none ∨ r.end_ = some 0 ∨ r.cell = none ∨ r.cell = some "") := by
  obtain ⟨c, s, e, b⟩ := r
  cases c <;> cases s <;> cases e <;> cases b <;>
    simp [allTruthy, truthyStr, truthyInt, not_or, and_assoc]

/-- Claim C4: the Completeness Filter removes exactly the entries with a
null or falsy field (chrom, start, end or cell, where the numeric zero and
the empty string are falsy), and removal is all it does: the retained
entries keep their fields and their order (the result is a sublist of the
input dict). -/
theorem claim_C4 (d : FragDict) :
    (filterFragmentDict d).Sublist d ∧
    ∀ k r, (k, r) ∈ filterFragmentDict d ↔
      ((k, r) ∈ d ∧
        ¬(r.chrom = none ∨ r.chrom = some "" ∨ r.start = none ∨ r.start = some 0 ∨
          r.end_ = none ∨ r.end_ = some 0 ∨ r.cell = none ∨ r.cell = some "")) := by
  constructor
  · exact List.filter_sublist d
  · intro k r
    rw [filterFragmentDict, List.mem_filter]
    exact and_congr_right (fun _ => allTruthy_iff r)

/-- Claim C5 (amended): on an empty CompletedFragment collection the
Deduplicator raises an error — `max(frag_id_lookup.values()) + 1` at
fragments.py line 52 is `max()` of an empty sequence, a `ValueError` —
instead of returning an empty list, and through `getFragments` that error
aborts the partition run. -/
theorem claim_C5 :
    collapseFragments ([] : List CompletedFragment) = Except.error PyErr.valueError ∧
    getFragments [] 30 "CB" none none = Except.error PyErr.valueError :=
  ⟨rfl, rfl⟩

/-- Claim C5, counterexample to the claim as stated: the empty collection
does not yield an empty output list (the call errors instead). -/
theorem claim_C5_counterexample :
    ¬ collapseFragments ([] : List CompletedFragment) = Except.ok [] := by
  intro hcontra
  rw [show collapseFragments ([] : List CompletedFragment)
      = Except.error PyErr.valueError from rfl] at hcontra
  exact Except.noConfusion hcontra

/-- Claim C10: calling `getFragments` with any non-null `readname_barcode`
pattern raises `NameError` (the module never imports `re`, so the
compilation step at line 108 fails) before any read is processed: the
result is the same for every read list. -/
theorem claim_C10 (reads : List AlignedSegment) (min_mapq : Int)
    (cellbarcode : String) (cells : Option (List String)) (pat : String) :
    getFragments reads min_mapq cellbarcode (some pat) cells =
      Except.error PyErr.nameError := rfl

/-- Claim C9 (amended): with a configured regex whose match on the read name
fails, `updateFragmentDict` raises `AttributeError` (`None.group()` at
fragments.py line 154); it never substitutes a null or empty barcode.  The
exception is uncaught, so it aborts the whole partition run rather than only
that read's processing path (see the counterexample). -/
theorem claim_C9 (d : FragDict) (s : AlignedSegment) (mq : Int) (cbt : String)
    (m : String → Option String) (cells : Option (List String))
    (h : m s.query_name = none) :
    updateFragmentDict d s mq cbt (some m) cells =
      Except.error PyErr.attributeError := by
  simp [updateFragmentDict, getCellBarcode, h]

theorem claim_C9_witness :
    updateFragmentDict [] badNameRead 30 "CB" (some exMatcher) none =
      Except.error PyErr.attributeError :=
  claim_C9 [] badNameRead 30 "CB" exMatcher none rfl

/-- Claim C9, counterexample to the claim as stated: one unparseable read
name makes the whole partition read loop fail — the error propagates and
even the subsequent well-formed pair `fwdRead`/`revRead` produces nothing,
so the failure is not contained to that read's processing path. -/
theorem claim_C9_counterexample :
    processReads 30 "CB" (some exMatcher) none [badNameRead, fwdRead, revRead] [] =
      Except.error PyErr.attributeError := rfl

/-- Claim C6: a read with mapping quality below the threshold, or with an
unknown reference end, is rejected and the in-progress mapping is returned
unchanged; in the concrete scenario a mapq-20 mate under threshold 30 is
dropped even though it would have completed the fragment of `fwdRead`, so
the pair yields no CompletedFragment. -/
theorem claim_C6 (d : FragDict) (s : AlignedSegment) (mq : Int) (cbt : String)
    (rb : Option (String → Option String)) (cells : Option (List String))
    (v : Option String)
    (hbc : getCellBarcode rb s cbt = Except.ok v)
    (hrej : s.mapping_quality < mq ∨ s.reference_end = none) :
    updateFragmentDict d s mq cbt rb cells = Except.ok d ∧
    (∃ d₀, processReads 30 "CB" none none [fwdRead, lowMapqRev] [] = Except.ok d₀ ∧
      completedList (filterFragmentDict d₀) = ([] : List CompletedFragment)) := by
  constructor
  · cases ha : allowReject cells v with
    | true => simp [updateFragmentDict, hbc, ha]
    | false =>
      by_cases hm : s.mapping_quality < mq
      · simp [updateFragmentDict, hbc, ha, hm]
      · rcases hrej with hm' | hren
        · exact absurd hm' hm
        · simp [updateFragmentDict, hbc, ha, hm, hren]
  · exact ⟨exDict1, rfl, rfl⟩

theorem claim_C6_witness :
    updateFragmentDict [] lowMapqRev 30 "CB" none none = Except.ok [] ∧
    (∃ d₀, processReads 30 "CB" none none [fwdRead, lowMapqRev] [] = Except.ok d₀ ∧
      completedList (filterFragmentDict d₀) = ([] : List CompletedFragment)) :=
  claim_C6 [] lowMapqRev 30 "CB" none none (some "AAAA") rfl (Or.inl (by decide))

/-- Claim C2: every accepted forward-strand read stores
`start = reference_start + query_alignment_start + 4` and every accepted
reverse-strand read stores `end = reference_end - 5` for its pair
identifier; in the concrete scenario the pair `R1+`(ref_start=100, qstart=2)
and `R1-`(ref_end=250) with barcode AAAA and mapq 40 assembles the fragment
(chr1, 106, 245, AAAA). -/
theorem claim_C2 (d : FragDict) (s : AlignedSegment) (mq : Int) (cbt : String)
    (rb : Option (String → Option String)) (cells : Option (List String))
    (v : Option String) (re_ : Int)
    (hbc : getCellBarcode rb s cbt = Except.ok v)
    (hallow : allowReject cells v = false)
    (hmapq : ¬ s.mapping_quality < mq)
    (hre : s.reference_end = some re_) :
    (∃ d' r, updateFragmentDict d s mq cbt rb cells = Except.ok d' ∧
      dictLookup d' s.query_name = some r ∧
      (s.is_reverse = false →
        r.start = some (s.reference_start + s.query_alignment_start + 4)) ∧
      (s.is_reverse = true → r.end_ = some (re_ - 5))) ∧
    (∃ d₀, processReads 30 "CB" none none [fwdRead, revRead] [] = Except.ok d₀ ∧
      completedList (filterFragmentDict d₀) = [⟨"chr1", 106, 245, "AAAA"⟩]) := by
  constructor
  · refine ⟨dictSet d s.query_name (newRec d s v re_), newRec d s v re_,
      updateFragmentDict_accepted d s mq cbt rb cells v re_ hbc hallow hmapq hre,
      dictLookup_dictSet_self d s.query_name (newRec d s v re_), ?_, ?_⟩
    · intro hrev; simp [newRec, hrev]
    · intro hrev; simp [newRec, hrev]
  · exact ⟨exDict2, rfl, rfl⟩

theorem claim_C2_witness :
    ∃ d₀, processReads 30 "CB" none none [fwdRead, revRead] [] = Except.ok d₀ ∧
      completedList (filterFragmentDict d₀) = [⟨"chr1", 106, 245, "AAAA"⟩] :=
  (claim_C2 [] fwdRead 30 "CB" none none (some "AAAA") 148 rfl rfl (by decide) rfl).2

/-- Claim C7: folding an accepted read whose pair identifier already has an
entry sets only the strand-relevant field of that entry: `chrom` and `cell`
are unchanged (a later mate never overrides the stored cell), the opposite
coordinate field is unchanged, and every other key of the mapping is
untouched. -/
theorem claim_C7 (d : FragDict) (s : AlignedSegment) (mq : Int) (cbt : String)
    (rb : Option (String → Option String)) (cells : Option (List String))
    (v : Option String) (re_ : Int) (r : FragRec)
    (hbc : getCellBarcode rb s cbt = Except.ok v)
    (hallow : allowReject cells v = false)
    (hmapq : ¬ s.mapping_quality < mq)
    (hre : s.reference_end = some re_)
    (hmem : dictLookup d s.query_name = some r) :
    ∃ d' r', updateFragmentDict d s mq cbt rb cells = Except.ok d' ∧
      dictLookup d' s.query_name = some r' ∧
      r'.chrom = r.chrom ∧ r'.cell = r.cell ∧
      (s.is_reverse = true → r'.start = r.start) ∧
      (s.is_reverse = false → r'.end_ = r.end_) ∧
      (∀ k, k ≠ s.query_name → dictLookup d' k = dictLookup d k) := by
  have hbase : baseRec d s v = r := by simp [baseRec, hmem]
  refine ⟨dictSet d s.query_name (newRec d s v re_), newRec d s v re_,
    updateFragmentDict_accepted d s mq cbt rb cells v re_ hbc hallow hmapq hre,
    dictLookup_dictSet_self d s.query_name (newRec d s v re_), ?_, ?_, ?_, ?_, ?_⟩
  · cases hrev : s.is_reverse <;> simp [newRec, hrev, hbase]
  · cases hrev : s.is_reverse <;> simp [newRec, hrev, hbase]
  · intro hrev; simp [newRec, hrev, hbase]
  · intro hrev; simp [newRec, hrev, hbase]
  · intro k hk
    exact dictLookup_dictSet_ne d s.query_name k (newRec d s v re_) hk

theorem claim_C7_witness :
    ∃ d' r', updateFragmentDict exDict1 revRead 30 "CB" none none = Except.ok d' ∧
      dictLookup d' revRead.query_name = some r' ∧
      r'.chrom = exRec1.chrom ∧ r'.cell = exRec1.cell ∧
      (revRead.is_reverse = true → r'.start = exRec1.start) ∧
      (revRead.is_reverse = false → r'.end_ = exRec1.end_) ∧
      (∀ k, k ≠ revRead.query_name → dictLookup d' k = dictLookup exDict1 k) :=
  claim_C7 exDict1 revRead 30 "CB" none none (some "AAAA") 250 exRec1
    rfl rfl (by decide) rfl rfl

/-- Claim C8 (amended): folding an identical read into the in-progress
mapping a second time leaves the mapping unchanged — `updateFragmentDict` is
idempotent on a repeated read, because the second fold rewrites the
strand-relevant field with the same recomputed value.  No deduplication
happens at this stage, but re-presenting the same read does not corrupt the
mapping. -/
theorem claim_C8 (d : FragDict) (s : AlignedSegment) (mq : Int) (cbt : String)
    (rb : Option (String → Option String)) (cells : Option (List String))
    (d' : FragDict)
    (h : updateFragmentDict d s mq cbt rb cells = Except.ok d') :
    updateFragmentDict d' s mq cbt rb cells = Except.ok d' := by
  cases hbc : getCellBarcode rb s cbt with
  | error e =>
    rw [show updateFragmentDict d s mq cbt rb cells = Except.error e from by
      simp [updateFragmentDict, hbc]] at h
    exact absurd h (by simp)
  | ok v =>
    cases ha : allowReject cells v with
    | true =>
      rw [show updateFragmentDict d s mq cbt rb cells = Except.ok d from by
        simp [updateFragmentDict, hbc, ha]] at h
      obtain rfl : d = d' := by injection h
      simp [updateFragmentDict, hbc, ha]
    | false =>
      by_cases hm : s.mapping_quality < mq
      · rw [show updateFragmentDict d s mq cbt rb cells = Except.ok d from by
          simp [updateFragmentDict, hbc, ha, hm]] at h
        obtain rfl : d = d' := by injection h
        simp [updateFragmentDict, hbc, ha, hm]
      · cases hre : s.reference_end with
        | none =>
          rw [show updateFragmentDict d s mq cbt rb cells = Except.ok d from by
            simp [updateFragmentDict, hbc, ha, hm, hre]] at h
          obtain rfl : d = d' := by injection h
          simp [updateFragmentDict, hbc, ha, hm, hre]
        | some re_ =>
          rw [updateFragmentDict_accepted d s mq cbt rb cells v re_ hbc ha hm hre] at h
          obtain rfl : dictSet d s.query_name (newRec d s v re_) = d' := by injection h
          rw [updateFragmentDict_accepted _ s mq cbt rb cells v re_ hbc ha hm hre]
          have hnew : newRec (dictSet d s.query_name (newRec d s v re_)) s v re_ =
              newRec d s v re_ := by
            have hb : baseRec (dictSet d s.query_name (newRec d s v re_)) s v =
                newRec d s v re_ := by
              simp [baseRec, dictLookup_dictSet_self]
            cases hrev : s.is_reverse <;> simp [newRec, hrev] at hb ⊢ <;>
              simp [hb, newRec, hrev]
          rw [hnew, dictSet_dictSet]

theorem claim_C8_witness :
    updateFragmentDict exDict1 fwdRead 30 "CB" none none = Except.ok exDict1 :=
  claim_C8 [] fwdRead 30 "CB" none none exDict1 rfl

/-- Claim C8, counterexample to the claim as stated: folding the identical
accepted read `fwdRead` a second time produces the same mapping as folding
it once, so re-processing does not change (let alone corrupt) the state. -/
theorem claim_C8_counterexample :
    updateFragmentDict [] fwdRead 30 "CB" none none = Except.ok exDict1 ∧
    updateFragmentDict exDict1 fwdRead 30 "CB" none none = Except.ok exDict1 :=
  ⟨rfl, rfl⟩

/-- Claim C1 (amended): on a non-empty CompletedFragment collection whose
chrom and cell fields contain no pipe character (the composite-key
separator), the Deduplicator emits exactly one row per distinct coordinate —
the decoded field lists are duplicate-free and a coordinate's decoded fields
appear in the output iff the coordinate occurs in the input — and each row
decodes some input coordinate whose per-(coordinate, barcode) occurrence
count is maximal at the row's cell (which occurs there at least once), with
the row's count the total number of CompletedFragments at that coordinate
over all barcodes.  In the concrete scenario, two (chr1,106,245,AAAA) and
one (chr1,106,245,BBBB) collapse to the single row with fields
["chr1","106","245"], cell AAAA and count 3.  On a pipe-containing chrom or
cell the code instead raises KeyError (see the counterexample). -/
theorem claim_C1 (frags : List CompletedFragment) (h : frags ≠ [])
    (hp : ∀ f ∈ frags, '|' ∉ f.chrom.data ∧ '|' ∉ f.cell.data) :
    (∃ out, collapseFragments frags = Except.ok out ∧
      (out.map (fun x => x.fields)).Nodup ∧
      (∀ c : String × Int × Int,
        [c.1, intStr c.2.1, intStr c.2.2] ∈ out.map (fun x => x.fields) ↔
          c ∈ frags.map key3) ∧
      (∀ x ∈ out, ∃ c ∈ frags.map key3,
        x.fields = [c.1, intStr c.2.1, intStr c.2.2] ∧
        (∀ b, countKey4 frags c b ≤ countKey4 frags c x.cell) ∧
        1 ≤ countKey4 frags c x.cell ∧
        x.count = (frags.filter (fun f => decide (key3 f = c))).length)) ∧
    collapseFragments exFrags =
      Except.ok [{ fields := ["chr1", "106", "245"], cell := "AAAA", count := 3 }] := by
  constructor
  · refine ⟨(id_lookup (frags.map key3)).map (fun c =>
      { fields := [c.1, intStr c.2.1, intStr c.2.2],
        cell := argmaxBarcode frags c,
        count := rowTotal frags c }), collapseFragments_noPipe frags h hp, ?_, ?_, ?_⟩
    · rw [List.map_map]
      rw [show ((fun x : DedupedRow => x.fields) ∘ (fun c : String × Int × Int =>
          ({ fields := [c.1, intStr c.2.1, intStr c.2.2],
             cell := argmaxBarcode frags c,
             count := rowTotal frags c } : DedupedRow)))
          = fun c : String × Int × Int => [c.1, intStr c.2.1, intStr c.2.2] from rfl]
      exact List.Nodup.map (fun c c' hcc => decodeFields_inj c c' hcc)
        (nodup_id_lookup _)
    · intro c
      rw [List.map_map]
      rw [show ((fun x : DedupedRow => x.fields) ∘ (fun c : String × Int × Int =>
          ({ fields := [c.1, intStr c.2.1, intStr c.2.2],
             cell := argmaxBarcode frags c,
             count := rowTotal frags c } : DedupedRow)))
          = fun c : String × Int × Int => [c.1, intStr c.2.1, intStr c.2.2] from rfl]
      constructor
      · intro hmem
        obtain ⟨c', hc', heq⟩ := List.mem_map.1 hmem
        have hcc : c' = c := decodeFields_inj c' c heq
        rw [← hcc]
        exact (mem_id_lookup _ _).1 hc'
      · intro hc
        exact List.mem_map_of_mem _ ((mem_id_lookup _ _).2 hc)
    · intro x hx
      obtain ⟨c, hc, rfl⟩ := List.mem_map.1 hx
      refine ⟨c, (mem_id_lookup _ _).1 hc, rfl, ?_, ?_, rowTotal_eq frags c⟩
      · intro b
        exact argmaxBarcode_ge frags c b
      · obtain ⟨f, hf, hkey⟩ := List.mem_map.1 ((mem_id_lookup _ _).1 hc)
        have hmemf : f ∈ frags.filter (fun g => decide (key3 g = c ∧ g.cell = f.cell)) :=
          List.mem_filter.2 ⟨hf, by simp [hkey]⟩
        have h1 : 0 < countKey4 frags c f.cell :=
          List.length_pos.2 (List.ne_nil_of_mem hmemf)
        exact le_trans h1 (argmaxBarcode_ge frags c f.cell)
  · rfl

theorem claim_C1_witness :
    collapseFragments exFrags =
      Except.ok [{ fields := ["chr1", "106", "245"], cell := "AAAA", count := 3 }] :=
  (claim_C1 exFrags (by decide) (by decide)).2

/-- Claim C1, counterexample to the claim as stated: on the non-empty
collection holding the single fragment (chrom "gi|1", 5, 9, cell AAAA) —
GenBank-style chromosome names contain pipes — the counts loop splits the
composite key "gi|1|5|9|AAAA" into five parts, re-joins the first three as
"gi|1|5", fails to find that key in the coordinate lookup (whose only key is
"gi|1|5|9") and raises KeyError: no DedupedFragment is emitted at all. -/
theorem claim_C1_counterexample :
    collapseFragments [⟨"gi|1", 5, 9, "AAAA"⟩] = Except.error PyErr.keyError := rfl

/-- Claim C3 (amended): on a non-empty CompletedFragment collection whose
chrom and cell fields contain no pipe character, the sum of the `count`
fields over all emitted rows equals the number of input CompletedFragments
(conservation of read count).  On a pipe-containing field the code instead
raises KeyError (see the counterexample). -/
theorem claim_C3 (frags : List CompletedFragment) (h : frags ≠ [])
    (hp : ∀ f ∈ frags, '|' ∉ f.chrom.data ∧ '|' ∉ f.cell.data) :
    ∃ out, collapseFragments frags = Except.ok out ∧
      (out.map (fun x => x.count)).sum = frags.length := by
  refine ⟨_, collapseFragments_noPipe frags h hp, ?_⟩
  rw [List.map_map]
  rw [show ((fun x : DedupedRow => x.count) ∘ (fun c : String × Int × Int =>
      ({ fields := [c.1, intStr c.2.1, intStr c.2.2],
         cell := argmaxBarcode frags c,
         count := rowTotal frags c } : DedupedRow)))
      = fun c => rowTotal frags c from rfl]
  rw [show (fun c => rowTotal frags c)
      = fun c => ((frags.filter (fun f => decide (key3 f = c))).length) from
    funext (rowTotal_eq frags)]
  exact sum_filter_lengths key3 (id_lookup (frags.map key3)) (nodup_id_lookup _) frags
    (fun a ha => (mem_id_lookup _ _).2 (List.mem_map_of_mem key3 ha))

theorem claim_C3_witness :
    ∃ out, collapseFragments exFrags = Except.ok out ∧
      (out.map (fun x => x.count)).sum = exFrags.length :=
  claim_C3 exFrags (by decide) (by decide)

/-- Claim C3, counterexample to the claim as stated: on the non-empty
collection holding the single fragment (chr1, 5, 9, cell "AA|A") the barcode
decode `split("|")[3]` yields "AA" instead of "AA|A", the barcode lookup
(whose only key is "AA|A") raises KeyError, and no count is conserved —
nothing is returned at all. -/
theorem claim_C3_counterexample :
    collapseFragments [⟨"chr1", 5, 9, "AA|A"⟩] = Except.error PyErr.keyError := rfl
